import Mathlib

/-!
Verification of the AIG (And-Inverter Graph) builder with structural hashing
and the k-feasible cut enumerator.

The embedding models the Rust sources:
 * `src/aig_structure/signal.rs`  — `Signal`
 * `src/aig_structure/aig.rs`     — `AIG`, `create_and`, `check_swap`,
                                    `topological_sort`, `topological_visit`
 * `src/algorithms/cut_enumerator.rs` — `CutEnumerator`: `enumerate_cuts`,
   `calculate_cuts_single_node`, `compute_node_cuts`, `filter_minimal_cuts`.

Modelling conventions:
 * `HashMap` is modelled as an association list where `insert` replaces the
   binding of an existing key in place and appends new keys at the end
   (this preserves key iteration order, a deterministic stand-in for the
   unspecified hash iteration order).
 * `HashSet<usize>` cut sets are modelled as `Finset Nat` (hash sets compare
   as sets).
 * Rust panics (indexing a missing key with `cuts[&left]`, `.unwrap()`)
   are modelled by `Option`: `none` is a panic.
 * The recursive `topological_visit` is modelled with explicit fuel; on the
   dependency-ordered graphs the program builds (AIGER guarantees every AND
   node's children have strictly smaller indices) the fuel bound
   `nodeBound g + 1` is never exhausted, so the fueled function agrees with
   the Rust recursion.
-/

set_option maxHeartbeats 1000000

/-- `Signal` from `signal.rs`: a node index plus a polarity bit. -/
structure Signal where
  index : Nat
  inverted : Bool
deriving DecidableEq

/-- `Signal::invert`. -/
def Signal.invert (s : Signal) : Signal := Signal.mk s.index (!s.inverted)

/-- `AndNode` (struct referenced from `aig.rs`): the two child signals of an
AND gate. -/
structure AndNode where
  left_signal : Signal
  right_signal : Signal
deriving DecidableEq

/-- Association-list model of `HashMap::get`. -/
def mapFind? {κ α : Type} [DecidableEq κ] : List (κ × α) → κ → Option α
  | [], _ => none
  | (k, v) :: rest, k' => if k = k' then some v else mapFind? rest k'

/-- Association-list model of `HashMap::insert` (replaces an existing
binding, appends a new key at the end). -/
def mapInsert {κ α : Type} [DecidableEq κ] : List (κ × α) → κ → α → List (κ × α)
  | [], k, v => [(k, v)]
  | (k0, v0) :: rest, k, v =>
    if k0 = k then (k, v) :: rest else (k0, v0) :: mapInsert rest k v

/-- The `AIG` struct from `aig.rs`: the structural-hashing dedup table and
the node table. -/
structure AIG where
  compute_table : List ((Signal × Signal) × Signal)
  node_map : List (Nat × AndNode)
deriving DecidableEq

/-- `AIG::new`. -/
def AIG.new : AIG := ⟨[], []⟩

/-- `AIG::check_swap`: swap the pair if `a.index > b.index`. -/
def check_swap (a b : Signal) : Signal × Signal :=
  if a.index > b.index then (b, a) else (a, b)

/-- The body of `AIG::create_and` after the child pair has been swapped into
canonical order: the four algebraic short-circuits, then the dedup-table
lookup, then allocation.  Returns the result `Signal` together with the
(possibly) updated graph. -/
def createCore (g : AIG) (a b : Signal) (new_index : Nat) : Signal × AIG :=
  if a.index = 0 ∧ a.inverted = false then (Signal.mk 0 false, g)
  else if a.index = 0 ∧ a.inverted = true then (b, g)
  else if a.index = b.index ∧ a.inverted ≠ b.inverted then (Signal.mk 0 false, g)
  else if a.index = b.index ∧ a.inverted = b.inverted then (a, g)
  else
    match mapFind? g.compute_table (a, b) with
    | some result => (Signal.mk result.index false, g)
    | none =>
      let new_signal := Signal.mk new_index false
      (new_signal,
        { compute_table := mapInsert g.compute_table (a, b) new_signal,
          node_map := mapInsert g.node_map new_index ⟨a, b⟩ })

/-- `AIG::create_and`.  The Rust source applies `check_swap` twice in a row
(a duplicated line); both applications are kept. -/
def create_and (g : AIG) (a0 b0 : Signal) (new_index : Nat) : Signal × AIG :=
  let p1 := check_swap a0 b0
  let p2 := check_swap p1.1 p1.2
  createCore g p2.1 p2.2 new_index

/-- `AIG::topological_visit`, with explicit fuel for the recursion.  The
visited set is a `List Nat` used only through membership; the order list is
appended on the right exactly as the Rust `order.push`. -/
def topoVisit (g : AIG) : Nat → Nat → List Nat × List Nat → List Nat × List Nat
  | 0, _, st => st
  | fuel + 1, node_id, (visited, order) =>
    if node_id ∈ visited then (visited, order)
    else
      let visited' := node_id :: visited
      match mapFind? g.node_map node_id with
      | some node =>
        let st1 := topoVisit g fuel node.left_signal.index (visited', order)
        let st2 := topoVisit g fuel node.right_signal.index st1
        (st2.1, st2.2 ++ [node_id])
      | none => (visited', order ++ [node_id])

/-- One step of the fold computing `nodeBound`. -/
def boundStep (m : Nat) (p : Nat × AndNode) : Nat :=
  max m (max p.1 (max p.2.left_signal.index p.2.right_signal.index))

/-- An upper bound on every node id and child index occurring in the node
table; `nodeBound g + 1` is enough fuel for `topoVisit` on a
dependency-ordered graph. -/
def nodeBound (g : AIG) : Nat :=
  g.node_map.foldl boundStep 0

/-- `AIG::topological_sort`: seed the depth-first walk from every key of the
node table. -/
def AIG.topological_sort (g : AIG) : List Nat :=
  ((g.node_map.map Prod.fst).foldl
    (fun st id => topoVisit g (nodeBound g + 1) id st) ([], [])).2

/-- The `cuts` field of `CutEnumerator`: node id → list of cuts. -/
abbrev CutsMap := List (Nat × List (Finset Nat))

/-- The inner loop of `filter_minimal_cuts`: does any cut at an enumeration
index other than `i` dominate `c2` (`c1 ⊆ c2` and `c1 ≠ c2`)?  `j` is the
enumeration index of the head of the remaining list. -/
def anyDominates (c2 : Finset Nat) (i : Nat) : Nat → List (Finset Nat) → Bool
  | _, [] => false
  | j, c1 :: rest =>
    (decide (j ≠ i) && decide (c1 ⊆ c2) && decide (c1 ≠ c2)) ||
      anyDominates c2 i (j + 1) rest

/-- The outer loop of `filter_minimal_cuts`: walk the enumerated candidate
list, skip dominated cuts, skip duplicates already in `result`, otherwise
push. -/
def fmcGo (all : List (Finset Nat)) : Nat → List (Finset Nat) → List (Finset Nat) → List (Finset Nat)
  | _, [], result => result
  | i, c2 :: rest, result =>
    if anyDominates c2 i 0 all then fmcGo all (i + 1) rest result
    else if result.any (fun x => decide (x = c2)) then fmcGo all (i + 1) rest result
    else fmcGo all (i + 1) rest (result ++ [c2])

/-- `CutEnumerator::filter_minimal_cuts`. -/
def filter_minimal_cuts (all_cuts : List (Finset Nat)) : List (Finset Nat) :=
  fmcGo all_cuts 0 all_cuts []

/-- `CutEnumerator::compute_node_cuts`.  `none` models the two possible
panics: the `.unwrap()` on the node lookup and the `self.cuts[&...]`
indexing of a missing child entry. -/
def compute_node_cuts (g : AIG) (cuts : CutsMap) (node_idx cut_size : Nat) :
    Option (List (Finset Nat)) :=
  match mapFind? g.node_map node_idx with
  | none => none
  | some node =>
    match mapFind? cuts node.left_signal.index,
          mapFind? cuts node.right_signal.index with
    | some cuts_l, some cuts_r =>
      some (cuts_l.flatMap fun cut_l =>
        (cuts_r.map fun cut_r => cut_l ∪ cut_r).filter
          fun union => decide (union.card ≤ cut_size))
    | _, _ => none

/-- The shared loop body of `enumerate_cuts` and
`calculate_cuts_single_node`: process one id of the traversal order, filling
its entry of the cuts table (AND node: Cartesian unions, dominance filter,
then the trivial cut appended; otherwise: the singleton leaf cut). -/
def processNode (g : AIG) (cut_size : Nat) (cuts : CutsMap) (node_idx : Nat) :
    Option CutsMap :=
  match mapFind? g.node_map node_idx with
  | some _ =>
    match compute_node_cuts g cuts node_idx cut_size with
    | none => none
    | some new_cuts =>
      some (mapInsert cuts node_idx
        (filter_minimal_cuts new_cuts ++ [{node_idx}]))
  | none => some (mapInsert cuts node_idx [{node_idx}])

/-- The topological traversal loop shared by both enumeration entry points. -/
def runCuts (g : AIG) (cut_size : Nat) : CutsMap → List Nat → Option CutsMap
  | cuts, [] => some cuts
  | cuts, node_idx :: rest =>
    match processNode g cut_size cuts node_idx with
    | none => none
    | some cuts' => runCuts g cut_size cuts' rest

/-- `CutEnumerator::enumerate_cuts`: clear the table, compute the topological
order (falling back to the declared input ids when the graph has no AND
node), then traverse.  Returns the final cuts table, or `none` on a panic. -/
def enumerate_cuts (g : AIG) (cut_size : Nat) (inputs : List Signal) :
    Option CutsMap :=
  let topo_order := g.topological_sort
  let topo_order := if topo_order.isEmpty then inputs.map Signal.index else topo_order
  runCuts g cut_size [] topo_order

/-- `Iterator::position` on a list of ids. -/
def listPosition (target : Nat) : List Nat → Option Nat
  | [] => none
  | x :: xs => if x = target then some 0 else (listPosition target xs).map (· + 1)

/-- `CutEnumerator::calculate_cuts_single_node`.  Returns the final cuts
table together with the returned cut list for the target (`none` models a
panic).  The invalid-target early return yields the cleared table and an
empty list; the diagnostic `eprintln!` is I/O and is not modelled. -/
def calculate_cuts_single_node (g : AIG) (cut_size : Nat) (inputs : List Signal)
    (target_node : Nat) : Option (CutsMap × List (Finset Nat)) :=
  let topo_order := g.topological_sort
  if ¬ (∃ sig ∈ inputs, sig.index = target_node) ∧ ¬ target_node ∈ topo_order then
    some ([], [])
  else
    let relevant_nodes :=
      match listPosition target_node topo_order with
      | some pos => topo_order.take (pos + 1)
      | none => []
    let relevant_nodes :=
      if relevant_nodes.isEmpty then [target_node] else relevant_nodes
    match runCuts g cut_size [] relevant_nodes with
    | none => none
    | some cuts => some (cuts, (mapFind? cuts target_node).getD [])

/-- Dependency order, the shape of every graph the program builds: each AND
node's children have strictly smaller indices than the node's id (the AIGER
reader derives ids from literals with `lhs > rhs0 >= rhs1`).  In particular
the graph is acyclic. -/
def DepOrdered (g : AIG) : Prop :=
  ∀ p ∈ g.node_map, p.2.left_signal.index < p.1 ∧ p.2.right_signal.index < p.1

instance (g : AIG) : Decidable (DepOrdered g) := by
  unfold DepOrdered; infer_instance

/-- Positional children-before-parents property of a traversal order. -/
def ChildrenBeforePos (g : AIG) (o : List Nat) : Prop :=
  ∀ i (hi : i < o.length) nd, mapFind? g.node_map (o.get ⟨i, hi⟩) = some nd →
    nd.left_signal.index ∈ o.take i ∧ nd.right_signal.index ∈ o.take i

/-- k-feasibility of a cuts table: every stored cut has at most `k` leaves. -/
def CutsFeasible (k : Nat) (tbl : CutsMap) : Prop :=
  ∀ n cl, mapFind? tbl n = some cl → ∀ c ∈ cl, c.card ≤ k

/-- Auxiliary invariant of a cuts table: every stored cut is nonempty and
mentions only ids `≤` the node it is stored under. -/
def CutsBounded (tbl : CutsMap) : Prop :=
  ∀ n cl, mapFind? tbl n = some cl → ∀ c ∈ cl, c.Nonempty ∧ ∀ x ∈ c, x ≤ n

/-- Minimality of a cuts table: within one node's cut list, no two distinct
cuts are related by strict subset and no two are equal. -/
def CutsMinimal (tbl : CutsMap) : Prop :=
  ∀ n cl, mapFind? tbl n = some cl →
    cl.Pairwise (fun c1 c2 => ¬ c1 ⊂ c2 ∧ ¬ c2 ⊂ c1 ∧ c1 ≠ c2)

/-- Trivial-cut property of a cuts table: every stored node has its
singleton cut, and a stored leaf has exactly the singleton list. -/
def CutsTrivial (g : AIG) (tbl : CutsMap) : Prop :=
  ∀ n cl, mapFind? tbl n = some cl →
    {n} ∈ cl ∧ (mapFind? g.node_map n = none → cl = [{n}])

/-- Scenario A of the spec: inputs `x1 = 1, x2 = 2`, node `3 = AND(x1, x2)`. -/
def gA : AIG := ⟨[], [(3, ⟨⟨1, false⟩, ⟨2, false⟩⟩)]⟩

/-- The declared primary inputs of scenario A. -/
def inputsA : List Signal := [⟨1, false⟩, ⟨2, false⟩]

/-- Scenario B of the spec: inputs `1, 2, 3`, nodes `4 = AND(1, 2)` and
`5 = AND(4, 3)`. -/
def gB : AIG :=
  ⟨[], [(4, ⟨⟨1, false⟩, ⟨2, false⟩⟩), (5, ⟨⟨4, false⟩, ⟨3, false⟩⟩)]⟩

/-- The declared primary inputs of scenario B. -/
def inputsB : List Signal := [⟨1, false⟩, ⟨2, false⟩, ⟨3, false⟩]

/-- A graph with one AND node `4 = AND(1, 2)` and a declared primary input
`3` that no gate references. -/
def gC : AIG := ⟨[], [(4, ⟨⟨1, false⟩, ⟨2, false⟩⟩)]⟩

/-- The declared primary inputs of the unreferenced-input graph `gC`. -/
def inputsC : List Signal := [⟨1, false⟩, ⟨2, false⟩, ⟨3, false⟩]

/-- The cuts table `enumerate_cuts` computes on scenario B with `k = 3`. -/
def tblB : CutsMap :=
  [(1, [{1}]), (2, [{2}]), (4, [{1, 2}, {4}]), (3, [{3}]),
    (5, [{1, 2, 3}, {4, 3}, {5}])]

/-- The cuts table `enumerate_cuts` computes on `gC` with `k = 2`: the
unreferenced declared input `3` has no entry. -/
def tblC : CutsMap := [(1, [{1}]), (2, [{2}]), (4, [{1, 2}, {4}])]

/-! ### Lemmas about the association-list map model -/

theorem mapFind?_insert_self {κ α : Type} [DecidableEq κ] (m : List (κ × α))
    (k : κ) (v : α) : mapFind? (mapInsert m k v) k = some v := by
  induction m with
  | nil => simp [mapFind?, mapInsert]
  | cons p rest ih =>
    obtain ⟨k0, v0⟩ := p
    by_cases h : k0 = k
    · simp [mapInsert, mapFind?, h]
    · simp [mapInsert, mapFind?, h, ih]

theorem mapFind?_insert_ne {κ α : Type} [DecidableEq κ] (m : List (κ × α))
    (k : κ) (v : α) (n : κ) (hne : n ≠ k) :
    mapFind? (mapInsert m k v) n = mapFind? m n := by
  have hkn : ¬ k = n := fun h => hne h.symm
  induction m with
  | nil => simp [mapFind?, mapInsert, hkn]
  | cons p rest ih =>
    obtain ⟨k0, v0⟩ := p
    by_cases h : k0 = k
    · subst h
      simp [mapInsert, mapFind?, hkn]
    · by_cases h2 : k0 = n
      · subst h2
        simp [mapInsert, mapFind?, h]
      · simp [mapInsert, mapFind?, h, h2, ih]

theorem mapFind?_mem {κ α : Type} [DecidableEq κ] {m : List (κ × α)}
    {k : κ} {v : α} (h : mapFind? m k = some v) : (k, v) ∈ m := by
  induction m with
  | nil => simp [mapFind?] at h
  | cons p rest ih =>
    obtain ⟨k0, v0⟩ := p
    by_cases hk : k0 = k
    · subst hk
      simp [mapFind?] at h
      subst h
      exact List.mem_cons_self _ _
    · simp [mapFind?, hk] at h
      exact List.mem_cons_of_mem _ (ih h)

theorem mapFind?_insert_isSome {κ α : Type} [DecidableEq κ] (m : List (κ × α))
    (k : κ) (v : α) (n : κ) :
    (mapFind? (mapInsert m k v) n).isSome ↔ (mapFind? m n).isSome ∨ n = k := by
  by_cases h : n = k
  · subst h
    simp [mapFind?_insert_self]
  · simp [mapFind?_insert_ne m k v n h, h]

/-! ### Lemmas about `check_swap` and `create_and` -/

theorem check_swap_twice (a b : Signal) :
    check_swap (check_swap a b).1 (check_swap a b).2 = check_swap a b := by
  unfold check_swap
  by_cases h : a.index > b.index
  · simp only [h, if_true]
    have : ¬ b.index > a.index := by omega
    simp [this]
  · simp [h]

theorem create_and_eq (g : AIG) (a b : Signal) (i : Nat) :
    create_and g a b i = createCore g (check_swap a b).1 (check_swap a b).2 i := by
  simp [create_and, check_swap_twice]

theorem createCore_symm (g : AIG) (a b : Signal) (i : Nat)
    (h : a.index = b.index) : createCore g a b i = createCore g b a i := by
  obtain ⟨ia, va⟩ := a
  obtain ⟨ib, vb⟩ := b
  simp only [Signal.mk.injEq] at h ⊢
  obtain rfl : ia = ib := h
  cases ia <;> cases va <;> cases vb <;> simp [createCore]

theorem create_and_swap (g : AIG) (a b : Signal) (i : Nat) :
    create_and g b a i = create_and g a b i := by
  rw [create_and_eq, create_and_eq]
  rcases Nat.lt_trichotomy a.index b.index with h | h | h
  · have h1 : ¬ a.index > b.index := by omega
    have h2 : b.index > a.index := h
    simp [check_swap, h1, h2]
  · have h1 : ¬ a.index > b.index := by omega
    have h2 : ¬ b.index > a.index := by omega
    simp only [check_swap, h1, h2, if_false]
    exact createCore_symm g b a i h.symm
  · have h2 : ¬ b.index > a.index := by omega
    simp [check_swap, h, h2]

theorem createCore_idem (g : AIG) (a b : Signal) (id1 id2 : Nat) :
    createCore (createCore g a b id1).2 a b id2 = createCore g a b id1 := by
  unfold createCore
  split_ifs <;> try rfl
  cases hm : mapFind? g.compute_table (a, b) with
  | some r => simp [hm]
  | none => simp [hm, mapFind?_insert_self]

theorem create_and_idem (g : AIG) (a b : Signal) (id1 id2 : Nat) :
    create_and (create_and g a b id1).2 a b id2 = create_and g a b id1 := by
  rw [create_and_eq g a b id1, create_and_eq _ a b id2]
  exact createCore_idem g _ _ id1 id2

/-- C5 — Structural-hash idempotence: for any graph state, calling
`create_and` a second time with the same semantic child pair (in either
order, with any id arguments) returns the identical `Signal` and never
increases the node-table size after the first call. -/
theorem claim_C5_structural_hash_idempotence (g : AIG) (a b : Signal)
    (id1 id2 : Nat) :
    ((create_and (create_and g a b id1).2 a b id2).1 = (create_and g a b id1).1 ∧
      (create_and (create_and g a b id1).2 a b id2).2.node_map.length ≤
        (create_and g a b id1).2.node_map.length) ∧
    ((create_and (create_and g a b id1).2 b a id2).1 = (create_and g a b id1).1 ∧
      (create_and (create_and g a b id1).2 b a id2).2.node_map.length ≤
        (create_and g a b id1).2.node_map.length) := by
  have h1 := create_and_idem g a b id1 id2
  have h2 : create_and (create_and g a b id1).2 b a id2 = create_and g a b id1 := by
    rw [create_and_swap]
    exact h1
  rw [h1, h2]
  exact ⟨⟨rfl, le_rfl⟩, rfl, le_rfl⟩

/-- C6 — Algebraic simplification: `create_and` with the constant 0 returns
constant 0, with the constant 1 returns the other operand, with a signal and
its inversion returns constant 0, and with twice the same signal returns
that signal — each regardless of argument order, on any graph state. -/
theorem claim_C6_algebraic_simplification (g : AIG) (b x : Signal) (id : Nat) :
    (create_and g ⟨0, false⟩ b id).1 = ⟨0, false⟩ ∧
    (create_and g b ⟨0, false⟩ id).1 = ⟨0, false⟩ ∧
    (create_and g ⟨0, true⟩ b id).1 = b ∧
    (create_and g b ⟨0, true⟩ id).1 = b ∧
    (create_and g x x.invert id).1 = ⟨0, false⟩ ∧
    (create_and g x.invert x id).1 = ⟨0, false⟩ ∧
    (create_and g x x id).1 = x := by
  obtain ⟨bi, bv⟩ := b
  obtain ⟨xi, xv⟩ := x
  rw [create_and_swap g ⟨bi, bv⟩ ⟨0, false⟩ id,
    create_and_swap g ⟨bi, bv⟩ ⟨0, true⟩ id,
    create_and_swap g (Signal.invert ⟨xi, xv⟩) ⟨xi, xv⟩ id]
  refine ⟨?_, ?_, ?_, ?_, ?_, ?_, ?_⟩ <;>
    cases bi <;> cases bv <;> cases xi <;> cases xv <;>
      simp [create_and, check_swap, createCore, Signal.invert]

/-- C7 — counterexample: with different caller-supplied ids, `create_and`
on two separate fresh graphs allocates different node ids, so the two calls
of the claim do not return the same `Signal`. -/
theorem claim_C7_counterexample :
    (create_and AIG.new ⟨1, false⟩ ⟨2, false⟩ 3).1 ≠
      (create_and AIG.new ⟨2, false⟩ ⟨1, false⟩ 4).1 := by decide

/-- C7 (amended) — Commutativity through the dedup table: `create_and(a, b,
id1)` issued on a fresh graph followed by `create_and(b, a, id2)` issued on
the resulting graph returns the same `Signal` from both calls. -/
theorem claim_C7_commutativity_amended (a b : Signal) (id1 id2 : Nat) :
    (create_and (create_and AIG.new a b id1).2 b a id2).1 =
      (create_and AIG.new a b id1).1 := by
  rw [create_and_swap, create_and_idem]

/-! ### Lemmas about the topological sort -/

theorem le_foldl_boundStep (l : List (Nat × AndNode)) :
    ∀ a : Nat, a ≤ l.foldl boundStep a := by
  induction l with
  | nil => intro a; exact le_rfl
  | cons p rest ih =>
    intro a
    exact le_trans (le_max_left _ _) (ih (boundStep a p))

theorem key_le_foldl_boundStep {p : Nat × AndNode} {l : List (Nat × AndNode)}
    (hp : p ∈ l) : ∀ a, p.1 ≤ l.foldl boundStep a := by
  induction l with
  | nil => cases hp
  | cons q rest ih =>
    intro a
    rcases List.mem_cons.mp hp with h | h
    · subst h
      calc p.1 ≤ boundStep a p := le_trans (le_max_left _ _) (le_max_right _ _)
        _ ≤ rest.foldl boundStep (boundStep a p) := le_foldl_boundStep rest _
    · rw [List.foldl_cons]
      exact ih h (boundStep a q)

theorem key_le_nodeBound (g : AIG) {p : Nat × AndNode} (hp : p ∈ g.node_map) :
    p.1 ≤ nodeBound g :=
  key_le_foldl_boundStep hp 0

theorem childrenBeforePos_nil (g : AIG) : ChildrenBeforePos g [] := by
  intro i hi
  exact absurd hi (Nat.not_lt_zero i)

theorem childrenBeforePos_append (g : AIG) (o : List Nat) (n : Nat)
    (hcb : ChildrenBeforePos g o)
    (hn : ∀ nd, mapFind? g.node_map n = some nd →
      nd.left_signal.index ∈ o ∧ nd.right_signal.index ∈ o) :
    ChildrenBeforePos g (o ++ [n]) := by
  intro i hi nd hfind
  by_cases hio : i < o.length
  · have hget : (o ++ [n]).get ⟨i, hi⟩ = o.get ⟨i, hio⟩ := by
      simp [List.get_eq_getElem, List.getElem_append_left hio]
    rw [hget] at hfind
    have := hcb i hio nd hfind
    rw [List.take_append_of_le_length (le_of_lt hio)]
    exact this
  · have hie : i = o.length := by
      have := hi
      simp only [List.length_append, List.length_singleton] at this
      omega
    subst hie
    have hget : (o ++ [n]).get ⟨o.length, hi⟩ = n := by
      simp [List.get_eq_getElem, List.getElem_append]
    rw [hget] at hfind
    have := hn nd hfind
    rw [List.take_append_of_le_length le_rfl, List.take_length]
    exact this

theorem indexOf_lt_of_mem_take {x : Nat} :
    ∀ (l : List Nat) (i : Nat), x ∈ l.take i → List.indexOf x l < i := by
  intro l
  induction l with
  | nil => intro i h; simp at h
  | cons a t ih =>
    intro i h
    cases i with
    | zero => simp at h
    | succ j =>
      rw [List.take_succ_cons] at h
      rcases List.mem_cons.mp h with rfl | h
      · simp
      · by_cases hax : a = x
        · subst hax
          simp
        · have := ih j h
          rw [List.indexOf_cons_ne t hax]
          omega

theorem topoVisit_spec (g : AIG) (hg : DepOrdered g) :
    ∀ f n v o v' o', n + 1 ≤ f →
      topoVisit g f n (v, o) = (v', o') →
      (∀ x ∈ v, x ∈ o ∨ n < x) →
      (∀ x ∈ o, x ∈ v) →
      o.Nodup →
      ChildrenBeforePos g o →
      (∃ Δ, o' = o ++ Δ ∧ (∀ x, x ∈ v' ↔ x ∈ v ∨ x ∈ Δ) ∧ ∀ x ∈ Δ, x ≤ n) ∧
        n ∈ o' ∧ (∀ x ∈ o', x ∈ v') ∧ o'.Nodup ∧ ChildrenBeforePos g o' := by
  intro f
  induction f with
  | zero =>
    intro n v o v' o' hf
    exact absurd hf (by omega)
  | succ f ih =>
    intro n v o v' o' hf heq hvo hov hnd hcb
    by_cases hmem : n ∈ v
    · simp only [topoVisit, if_pos hmem] at heq
      injection heq with hv' ho'
      subst hv'
      subst ho'
      have hno : n ∈ o := by
        rcases hvo n hmem with h | h
        · exact h
        · omega
      refine ⟨⟨[], by simp, ?_, by simp⟩, hno, hov, hnd, hcb⟩
      intro x
      simp
    · simp only [topoVisit, if_neg hmem] at heq
      cases hnode : mapFind? g.node_map n with
      | none =>
        rw [hnode] at heq
        simp only at heq
        injection heq with hv' ho'
        subst hv'
        subst ho'
        have hno : n ∉ o := fun h => hmem (hov n h)
        refine ⟨⟨[n], rfl, ?_, ?_⟩, by simp, ?_, ?_, ?_⟩
        · intro x
          simp only [List.mem_cons, List.mem_singleton]
          tauto
        · intro x hx
          simp only [List.mem_singleton] at hx
          omega
        · intro x hx
          rcases List.mem_append.mp hx with h | h
          · exact List.mem_cons_of_mem _ (hov x h)
          · simp only [List.mem_singleton] at h
            subst h
            exact List.mem_cons_self _ _
        · rw [List.nodup_append]
          refine ⟨hnd, List.nodup_singleton n, ?_⟩
          intro x hx hx2
          simp only [List.mem_singleton] at hx2
          subst hx2
          exact hno hx
        · exact childrenBeforePos_append g o n hcb
            (fun nd hnd' => by rw [hnode] at hnd'; cases hnd')
      | some node =>
        rw [hnode] at heq
        simp only at heq
        have hl : node.left_signal.index < n := (hg (n, node) (mapFind?_mem hnode)).1
        have hr : node.right_signal.index < n := (hg (n, node) (mapFind?_mem hnode)).2
        rcases h1 : topoVisit g f node.left_signal.index (n :: v, o) with ⟨v1, o1⟩
        rw [h1] at heq
        rcases h2 : topoVisit g f node.right_signal.index (v1, o1) with ⟨v2, o2⟩
        rw [h2] at heq
        simp only [Prod.mk.injEq] at heq
        obtain ⟨hv', ho'⟩ := heq
        subst hv'
        subst ho'
        obtain ⟨⟨Δ1, ho1, hviff1, hΔ1⟩, hlmem, hov1, hnd1, hcb1⟩ :=
          ih node.left_signal.index (n :: v) o v1 o1 (by omega) h1
            (by
              intro x hx
              rcases List.mem_cons.mp hx with rfl | hx
              · right
                exact hl
              · rcases hvo x hx with h | h
                · exact Or.inl h
                · right
                  omega)
            (fun x hx => List.mem_cons_of_mem _ (hov x hx)) hnd hcb
        obtain ⟨⟨Δ2, ho2, hviff2, hΔ2⟩, hrmem, hov2, hnd2, hcb2⟩ :=
          ih node.right_signal.index v1 o1 v2 o2 (by omega) h2
            (by
              intro x hx
              rcases (hviff1 x).mp hx with hx | hx
              · rcases List.mem_cons.mp hx with rfl | hx
                · right
                  exact hr
                · rcases hvo x hx with h | h
                  · left
                    rw [ho1]
                    exact List.mem_append_left _ h
                  · right
                    omega
              · left
                rw [ho1]
                exact List.mem_append_right _ hx)
            hov1 hnd1 hcb1
        refine ⟨⟨Δ1 ++ (Δ2 ++ [n]), ?_, ?_, ?_⟩, by simp, ?_, ?_, ?_⟩
        · rw [ho2, ho1]
          simp [List.append_assoc]
        · intro x
          rw [hviff2 x, hviff1 x]
          simp only [List.mem_cons, List.mem_append, List.mem_singleton]
          tauto
        · intro x hx
          rcases List.mem_append.mp hx with hx | hx
          · have := hΔ1 x hx
            omega
          · rcases List.mem_append.mp hx with hx | hx
            · have := hΔ2 x hx
              omega
            · simp only [List.mem_singleton] at hx
              omega
        · intro x hx
          rcases List.mem_append.mp hx with hx | hx
          · exact hov2 x hx
          · simp only [List.mem_singleton] at hx
            subst hx
            exact (hviff2 _).mpr (Or.inl ((hviff1 _).mpr
              (Or.inl (List.mem_cons_self _ _))))
        · rw [List.nodup_append]
          refine ⟨hnd2, List.nodup_singleton n, ?_⟩
          intro x hx hx2
          simp only [List.mem_singleton] at hx2
          subst hx2
          rw [ho2, ho1] at hx
          rcases List.mem_append.mp hx with hx | hx
          · rcases List.mem_append.mp hx with hx | hx
            · exact hmem (hov x hx)
            · have := hΔ1 x hx
              omega
          · have := hΔ2 x hx
            omega
        · refine childrenBeforePos_append g o2 n hcb2 ?_
          intro nd hnd'
          rw [hnode] at hnd'
          injection hnd' with hndeq
          subst hndeq
          constructor
          · rw [ho2]
            exact List.mem_append_left _ hlmem
          · exact hrmem

theorem topoFold_spec (g : AIG) (hg : DepOrdered g) (F : Nat) :
    ∀ roots v o vr orr,
      List.foldl (fun st id => topoVisit g F id st) (v, o) roots = (vr, orr) →
      (∀ id ∈ roots, id + 1 ≤ F) →
      (∀ x ∈ v, x ∈ o) → (∀ x ∈ o, x ∈ v) → o.Nodup → ChildrenBeforePos g o →
      (∃ Δ, orr = o ++ Δ) ∧ (∀ id ∈ roots, id ∈ orr) ∧
        (∀ x ∈ orr, x ∈ vr) ∧ (∀ x ∈ vr, x ∈ orr) ∧ orr.Nodup ∧
        ChildrenBeforePos g orr := by
  intro roots
  induction roots with
  | nil =>
    intro v o vr orr heq _ hvo hov hnd hcb
    simp only [List.foldl_nil, Prod.mk.injEq] at heq
    obtain ⟨hv, ho⟩ := heq
    subst hv
    subst ho
    exact ⟨⟨[], by simp⟩, by simp, hov, hvo, hnd, hcb⟩
  | cons id rest ih =>
    intro v o vr orr heq hF hvo hov hnd hcb
    rcases h1 : topoVisit g F id (v, o) with ⟨v1, o1⟩
    rw [List.foldl_cons, h1] at heq
    obtain ⟨⟨Δ1, ho1, hviff1, _⟩, hidmem, hov1, hnd1, hcb1⟩ :=
      topoVisit_spec g hg F id v o v1 o1 (hF id (List.mem_cons_self _ _)) h1
        (fun x hx => Or.inl (hvo x hx)) hov hnd hcb
    have hvo1 : ∀ x ∈ v1, x ∈ o1 := by
      intro x hx
      rcases (hviff1 x).mp hx with hx | hx
      · rw [ho1]
        exact List.mem_append_left _ (hvo x hx)
      · rw [ho1]
        exact List.mem_append_right _ hx
    obtain ⟨⟨Δr, hor⟩, hrest, hov2, hvo2, hnd2, hcb2⟩ :=
      ih v1 o1 vr orr heq (fun i hi => hF i (List.mem_cons_of_mem _ hi))
        hvo1 hov1 hnd1 hcb1
    refine ⟨⟨Δ1 ++ Δr, ?_⟩, ?_, hov2, hvo2, hnd2, hcb2⟩
    · rw [hor, ho1, List.append_assoc]
    · intro i hi
      rcases List.mem_cons.mp hi with rfl | hi
      · rw [hor]
        exact List.mem_append_left _ hidmem
      · exact hrest i hi

theorem topological_sort_spec (g : AIG) (hg : DepOrdered g) :
    (∀ p ∈ g.node_map, p.1 ∈ g.topological_sort) ∧
      g.topological_sort.Nodup ∧ ChildrenBeforePos g g.topological_sort := by
  rcases hfold : List.foldl (fun st id => topoVisit g (nodeBound g + 1) id st)
      ([], []) (g.node_map.map Prod.fst) with ⟨vr, orr⟩
  have hts : g.topological_sort = orr := by
    unfold AIG.topological_sort
    rw [hfold]
  have hF : ∀ id ∈ g.node_map.map Prod.fst, id + 1 ≤ nodeBound g + 1 := by
    intro id hid
    rcases List.mem_map.mp hid with ⟨p, hp, hpe⟩
    subst hpe
    have := key_le_nodeBound g hp
    omega
  obtain ⟨_, hkeys, _, _, hnd, hcb⟩ :=
    topoFold_spec g hg (nodeBound g + 1) (g.node_map.map Prod.fst) [] [] vr orr
      hfold hF (by intro x hx; cases hx) (by intro x hx; cases hx)
      List.nodup_nil (childrenBeforePos_nil g)
  rw [hts]
  exact ⟨fun p hp => hkeys p.1 (List.mem_map.mpr ⟨p, hp, rfl⟩), hnd, hcb⟩

/-- C4 — Topological validity: on every dependency-ordered (acyclic) graph,
`topological_sort` lists every node-table key, contains no id twice, and
places both children of every AND node (leaves included) strictly before
that node. -/
theorem claim_C4_topological_validity (g : AIG) (hg : DepOrdered g) :
    g.topological_sort.Nodup ∧
      ∀ id nd, mapFind? g.node_map id = some nd →
        id ∈ g.topological_sort ∧
        nd.left_signal.index ∈ g.topological_sort ∧
        nd.right_signal.index ∈ g.topological_sort ∧
        List.indexOf nd.left_signal.index g.topological_sort <
          List.indexOf id g.topological_sort ∧
        List.indexOf nd.right_signal.index g.topological_sort <
          List.indexOf id g.topological_sort := by
  obtain ⟨hkeys, hnd, hcb⟩ := topological_sort_spec g hg
  refine ⟨hnd, ?_⟩
  intro id nd hfind
  have hidmem : id ∈ g.topological_sort := hkeys (id, nd) (mapFind?_mem hfind)
  have hlt : List.indexOf id g.topological_sort < g.topological_sort.length :=
    List.indexOf_lt_length.mpr hidmem
  have hget : g.topological_sort.get ⟨List.indexOf id g.topological_sort, hlt⟩ = id :=
    List.indexOf_get hlt
  obtain ⟨hl, hr⟩ := hcb (List.indexOf id g.topological_sort) hlt nd
    (by rw [hget]; exact hfind)
  exact ⟨hidmem, List.mem_of_mem_take hl, List.mem_of_mem_take hr,
    indexOf_lt_of_mem_take _ _ hl, indexOf_lt_of_mem_take _ _ hr⟩

/-- Witness for C4 on scenario B (`4 = AND(1,2)`, `5 = AND(4,3)`): the
hypothesis is satisfiable and the conclusions evaluate on the concrete
order `[1, 2, 4, 3, 5]`. -/
theorem claim_C4_topological_validity_witness :
    DepOrdered gB ∧ gB.topological_sort.Nodup ∧
      5 ∈ gB.topological_sort ∧
      List.indexOf 4 gB.topological_sort < List.indexOf 5 gB.topological_sort ∧
      List.indexOf 3 gB.topological_sort < List.indexOf 5 gB.topological_sort := by
  have h := claim_C4_topological_validity gB (by decide)
  have h5 := h.2 5 ⟨⟨4, false⟩, ⟨3, false⟩⟩ (by decide)
  exact ⟨by decide, h.1, h5.1, h5.2.2.2.1, h5.2.2.2.2⟩

/-! ### Lemmas about the cut enumerator -/

theorem anyDominates_false (c2 : Finset Nat) (i : Nat) :
    ∀ (l : List (Finset Nat)) (j0 : Nat), anyDominates c2 i j0 l = false →
      ∀ k (hk : k < l.length), j0 + k ≠ i →
        ¬ (l.get ⟨k, hk⟩ ⊆ c2 ∧ l.get ⟨k, hk⟩ ≠ c2) := by
  intro l
  induction l with
  | nil =>
    intro j0 _ k hk
    exact absurd hk (by simp)
  | cons c1 rest ih =>
    intro j0 had k hk hki
    rw [anyDominates, Bool.or_eq_false_iff] at had
    obtain ⟨hhead, htail⟩ := had
    cases k with
    | zero =>
      rintro ⟨hsub, hne⟩
      have hj0 : j0 ≠ i := by simpa using hki
      simp only [List.get] at hsub hne
      rw [decide_eq_true (p := j0 ≠ i) hj0, decide_eq_true (p := c1 ⊆ c2) hsub,
        decide_eq_true (p := c1 ≠ c2) hne] at hhead
      simp at hhead
    | succ k' =>
      have hk' : k' < rest.length := by
        simp only [List.length_cons] at hk
        omega
      have := ih (j0 + 1) htail k' hk' (by omega)
      simpa using this

theorem fmcGo_spec (all : List (Finset Nat)) :
    ∀ (rem : List (Finset Nat)) (i : Nat) (res : List (Finset Nat)),
      all.drop i = rem →
      (∀ c ∈ res, c ∈ all ∧ ∀ c1 ∈ all, ¬ c1 ⊂ c) → res.Nodup →
      (∀ c ∈ fmcGo all i rem res, c ∈ all ∧ ∀ c1 ∈ all, ¬ c1 ⊂ c) ∧
        (fmcGo all i rem res).Nodup := by
  intro rem
  induction rem with
  | nil =>
    intro i res _ hres hnd
    exact ⟨hres, hnd⟩
  | cons c2 rest ih =>
    intro i res hdrop hres hnd
    have hlen : i < all.length := by
      by_contra h
      rw [List.drop_eq_nil_of_le (by omega)] at hdrop
      exact List.cons_ne_nil c2 rest hdrop.symm
    have hsplit := List.drop_eq_getElem_cons hlen
    rw [hdrop] at hsplit
    injection hsplit with hgeti hdrop'
    by_cases had : anyDominates c2 i 0 all = true
    · rw [fmcGo, if_pos had]
      exact ih (i + 1) res hdrop'.symm hres hnd
    · have hadf : anyDominates c2 i 0 all = false := by
        cases h : anyDominates c2 i 0 all
        · rfl
        · exact absurd h had
      rw [fmcGo, if_neg had]
      by_cases hdup : res.any (fun x => decide (x = c2)) = true
      · rw [if_pos hdup]
        exact ih (i + 1) res hdrop'.symm hres hnd
      · rw [if_neg hdup]
        refine ih (i + 1) (res ++ [c2]) hdrop'.symm ?_ ?_
        · intro c hc
          rcases List.mem_append.mp hc with hc | hc
          · exact hres c hc
          · simp only [List.mem_singleton] at hc
            subst hc
            constructor
            · rw [hgeti]
              exact List.getElem_mem _
            · intro c1 hc1 hssub
              rcases List.mem_iff_get.mp hc1 with ⟨⟨kk, hkk⟩, hgk⟩
              by_cases hki : kk = i
              · subst hki
                rw [List.get_eq_getElem] at hgk
                rw [← hgeti] at hgk
                rw [← hgk] at hssub
                exact hssub.ne rfl
              · refine anyDominates_false c i all 0 hadf kk hkk (by omega) ?_
                rw [hgk]
                exact ⟨hssub.subset, hssub.ne⟩
        · rw [List.nodup_append]
          refine ⟨hnd, List.nodup_singleton _, ?_⟩
          intro x hx hx2
          simp only [List.mem_singleton] at hx2
          subst hx2
          exact hdup (List.any_eq_true.mpr ⟨x, hx, by simp⟩)

theorem filter_minimal_cuts_spec (all : List (Finset Nat)) :
    (∀ c ∈ filter_minimal_cuts all, c ∈ all ∧ ∀ c1 ∈ all, ¬ c1 ⊂ c) ∧
      (filter_minimal_cuts all).Nodup :=
  fmcGo_spec all all 0 [] (by simp) (by simp) List.nodup_nil

theorem filter_minimal_cuts_pairwise (all : List (Finset Nat)) :
    (filter_minimal_cuts all).Pairwise
      (fun c1 c2 => ¬ c1 ⊂ c2 ∧ ¬ c2 ⊂ c1 ∧ c1 ≠ c2) := by
  obtain ⟨hmem, hnd⟩ := filter_minimal_cuts_spec all
  refine List.Pairwise.imp_of_mem ?_ hnd
  intro a b ha hb hne
  obtain ⟨hain, hadom⟩ := hmem a ha
  obtain ⟨hbin, hbdom⟩ := hmem b hb
  exact ⟨fun h => hbdom a hain h, fun h => hadom b hbin h, hne⟩

theorem compute_node_cuts_spec {g : AIG} {cuts : CutsMap} {node_idx cut_size : Nat}
    {node : AndNode} (hnode : mapFind? g.node_map node_idx = some node)
    {new_cuts : List (Finset Nat)}
    (h : compute_node_cuts g cuts node_idx cut_size = some new_cuts) :
    ∃ cuts_l cuts_r,
      mapFind? cuts node.left_signal.index = some cuts_l ∧
      mapFind? cuts node.right_signal.index = some cuts_r ∧
      ∀ c ∈ new_cuts, c.card ≤ cut_size ∧
        ∃ cl ∈ cuts_l, ∃ cr ∈ cuts_r, c = cl ∪ cr := by
  unfold compute_node_cuts at h
  rw [hnode] at h
  simp only at h
  split at h
  next cuts_l cuts_r hL hR =>
    injection h with hnc
    subst hnc
    refine ⟨cuts_l, cuts_r, hL, hR, ?_⟩
    intro c hc
    rw [List.mem_flatMap] at hc
    obtain ⟨cl, hcl, hc⟩ := hc
    rw [List.mem_filter] at hc
    obtain ⟨hc, hcard⟩ := hc
    rw [List.mem_map] at hc
    obtain ⟨cr, hcr, hceq⟩ := hc
    subst hceq
    exact ⟨by simpa using hcard, cl, hcl, cr, hcr, rfl⟩
  next a b hfail =>
    cases h

theorem processNode_find_ne {g : AIG} {k : Nat} {cuts cuts' : CutsMap}
    {node_idx : Nat} (h : processNode g k cuts node_idx = some cuts')
    (n : Nat) (hne : n ≠ node_idx) : mapFind? cuts' n = mapFind? cuts n := by
  unfold processNode at h
  cases hnode : mapFind? g.node_map node_idx with
  | none =>
    rw [hnode] at h
    injection h with h'
    subst h'
    exact mapFind?_insert_ne _ _ _ _ hne
  | some node =>
    rw [hnode] at h
    cases hcomp : compute_node_cuts g cuts node_idx k with
    | none =>
      rw [hcomp] at h
      cases h
    | some new_cuts =>
      rw [hcomp] at h
      injection h with h'
      subst h'
      exact mapFind?_insert_ne _ _ _ _ hne

theorem processNode_find_self {g : AIG} {k : Nat} {cuts cuts' : CutsMap}
    {node_idx : Nat} (h : processNode g k cuts node_idx = some cuts') :
    ∃ cl, mapFind? cuts' node_idx = some cl := by
  unfold processNode at h
  cases hnode : mapFind? g.node_map node_idx with
  | none =>
    rw [hnode] at h
    injection h with h'
    subst h'
    exact ⟨_, mapFind?_insert_self _ _ _⟩
  | some node =>
    rw [hnode] at h
    cases hcomp : compute_node_cuts g cuts node_idx k with
    | none =>
      rw [hcomp] at h
      cases h
    | some new_cuts =>
      rw [hcomp] at h
      injection h with h'
      subst h'
      exact ⟨_, mapFind?_insert_self _ _ _⟩

theorem processNode_keys {g : AIG} {k : Nat} {cuts cuts' : CutsMap}
    {node_idx : Nat} (h : processNode g k cuts node_idx = some cuts')
    (n : Nat) :
    (mapFind? cuts' n).isSome ↔ (mapFind? cuts n).isSome ∨ n = node_idx := by
  by_cases hne : n = node_idx
  · subst hne
    obtain ⟨cl, hcl⟩ := processNode_find_self h
    simp [hcl]
  · rw [processNode_find_ne h n hne]
    simp [hne]

theorem runCuts_append (g : AIG) (k : Nat) :
    ∀ (l1 l2 : List Nat) (cuts : CutsMap),
      runCuts g k cuts (l1 ++ l2) =
        match runCuts g k cuts l1 with
        | none => none
        | some c => runCuts g k c l2 := by
  intro l1
  induction l1 with
  | nil => intro l2 cuts; rfl
  | cons x rest ih =>
    intro l2 cuts
    rw [List.cons_append]
    cases hp : processNode g k cuts x with
    | none => simp [runCuts, hp]
    | some cuts' =>
      have h1 : runCuts g k cuts (x :: (rest ++ l2)) = runCuts g k cuts' (rest ++ l2) := by
        simp [runCuts, hp]
      have h2 : runCuts g k cuts (x :: rest) = runCuts g k cuts' rest := by
        simp [runCuts, hp]
      rw [h1, h2]
      exact ih l2 cuts'

theorem runCuts_not_mem (g : AIG) (k : Nat) :
    ∀ (order : List Nat) (cuts out : CutsMap) (n : Nat), n ∉ order →
      runCuts g k cuts order = some out → mapFind? out n = mapFind? cuts n := by
  intro order
  induction order with
  | nil =>
    intro cuts out n _ heq
    injection heq with h'
    subst h'
    rfl
  | cons x rest ih =>
    intro cuts out n hn heq
    rw [runCuts] at heq
    cases hp : processNode g k cuts x with
    | none =>
      rw [hp] at heq
      cases heq
    | some cuts' =>
      rw [hp] at heq
      have hnx : n ≠ x := fun h => hn (h ▸ List.mem_cons_self x rest)
      have hnr : n ∉ rest := fun h => hn (List.mem_cons_of_mem x h)
      rw [ih cuts' out n hnr heq]
      exact processNode_find_ne hp n hnx

theorem runCuts_keys (g : AIG) (k : Nat) :
    ∀ (order : List Nat) (cuts out : CutsMap),
      runCuts g k cuts order = some out →
      ∀ n, (mapFind? out n).isSome ↔ (mapFind? cuts n).isSome ∨ n ∈ order := by
  intro order
  induction order with
  | nil =>
    intro cuts out heq n
    injection heq with h'
    subst h'
    simp
  | cons x rest ih =>
    intro cuts out heq n
    rw [runCuts] at heq
    cases hp : processNode g k cuts x with
    | none =>
      rw [hp] at heq
      cases heq
    | some cuts' =>
      rw [hp] at heq
      rw [ih cuts' out heq n, processNode_keys hp n]
      simp [List.mem_cons]
      tauto

theorem cutsFeasible_insert {k : Nat} {tbl : CutsMap} {m : Nat}
    {E : List (Finset Nat)} (hc : CutsFeasible k tbl)
    (hE : ∀ c ∈ E, c.card ≤ k) : CutsFeasible k (mapInsert tbl m E) := by
  intro n cl hf
  by_cases hnm : n = m
  · subst hnm
    rw [mapFind?_insert_self] at hf
    injection hf with h'
    subst h'
    exact hE
  · rw [mapFind?_insert_ne _ _ _ _ hnm] at hf
    exact hc n cl hf

theorem cutsBounded_insert {tbl : CutsMap} {m : Nat} {E : List (Finset Nat)}
    (hc : CutsBounded tbl) (hE : ∀ c ∈ E, c.Nonempty ∧ ∀ x ∈ c, x ≤ m) :
    CutsBounded (mapInsert tbl m E) := by
  intro n cl hf
  by_cases hnm : n = m
  · subst hnm
    rw [mapFind?_insert_self] at hf
    injection hf with h'
    subst h'
    exact hE
  · rw [mapFind?_insert_ne _ _ _ _ hnm] at hf
    exact hc n cl hf

theorem cutsMinimal_insert {tbl : CutsMap} {m : Nat} {E : List (Finset Nat)}
    (hc : CutsMinimal tbl)
    (hE : E.Pairwise (fun c1 c2 => ¬ c1 ⊂ c2 ∧ ¬ c2 ⊂ c1 ∧ c1 ≠ c2)) :
    CutsMinimal (mapInsert tbl m E) := by
  intro n cl hf
  by_cases hnm : n = m
  · subst hnm
    rw [mapFind?_insert_self] at hf
    injection hf with h'
    subst h'
    exact hE
  · rw [mapFind?_insert_ne _ _ _ _ hnm] at hf
    exact hc n cl hf

theorem cutsTrivial_insert {g : AIG} {tbl : CutsMap} {m : Nat}
    {E : List (Finset Nat)} (hc : CutsTrivial g tbl)
    (hE : {m} ∈ E ∧ (mapFind? g.node_map m = none → E = [{m}])) :
    CutsTrivial g (mapInsert tbl m E) := by
  intro n cl hf
  by_cases hnm : n = m
  · subst hnm
    rw [mapFind?_insert_self] at hf
    injection hf with h'
    subst h'
    exact hE
  · rw [mapFind?_insert_ne _ _ _ _ hnm] at hf
    exact hc n cl hf

theorem processNode_feasible {g : AIG} {k : Nat} {cuts cuts' : CutsMap}
    {node_idx : Nat} (hk : 1 ≤ k) (hc : CutsFeasible k cuts)
    (h : processNode g k cuts node_idx = some cuts') : CutsFeasible k cuts' := by
  unfold processNode at h
  cases hnode : mapFind? g.node_map node_idx with
  | none =>
    rw [hnode] at h
    injection h with h'
    subst h'
    refine cutsFeasible_insert hc ?_
    intro c hcmem
    simp only [List.mem_singleton] at hcmem
    subst hcmem
    simpa using hk
  | some node =>
    rw [hnode] at h
    cases hcomp : compute_node_cuts g cuts node_idx k with
    | none =>
      rw [hcomp] at h
      cases h
    | some new_cuts =>
      rw [hcomp] at h
      injection h with h'
      subst h'
      obtain ⟨cuts_l, cuts_r, hL, hR, hprop⟩ := compute_node_cuts_spec hnode hcomp
      refine cutsFeasible_insert hc ?_
      intro c hcmem
      rcases List.mem_append.mp hcmem with hcmem | hcmem
      · exact (hprop c (((filter_minimal_cuts_spec new_cuts).1 c hcmem).1)).1
      · simp only [List.mem_singleton] at hcmem
        subst hcmem
        simpa using hk

theorem processNode_good {g : AIG} {k : Nat} {cuts cuts' : CutsMap}
    {node_idx : Nat} (hg : DepOrdered g)
    (hb : CutsBounded cuts) (hm : CutsMinimal cuts)
    (h : processNode g k cuts node_idx = some cuts') :
    CutsBounded cuts' ∧ CutsMinimal cuts' := by
  unfold processNode at h
  cases hnode : mapFind? g.node_map node_idx with
  | none =>
    rw [hnode] at h
    injection h with h'
    subst h'
    constructor
    · refine cutsBounded_insert hb ?_
      intro c hcmem
      simp only [List.mem_singleton] at hcmem
      subst hcmem
      exact ⟨Finset.singleton_nonempty _, by simp⟩
    · exact cutsMinimal_insert hm (List.pairwise_singleton _ _)
  | some node =>
    rw [hnode] at h
    cases hcomp : compute_node_cuts g cuts node_idx k with
    | none =>
      rw [hcomp] at h
      cases h
    | some new_cuts =>
      rw [hcomp] at h
      injection h with h'
      subst h'
      obtain ⟨cuts_l, cuts_r, hL, hR, hprop⟩ := compute_node_cuts_spec hnode hcomp
      have hlidx : node.left_signal.index < node_idx :=
        (hg (node_idx, node) (mapFind?_mem hnode)).1
      have hridx : node.right_signal.index < node_idx :=
        (hg (node_idx, node) (mapFind?_mem hnode)).2
      have hnew : ∀ c ∈ new_cuts, c.Nonempty ∧ ∀ x ∈ c, x < node_idx := by
        intro c hc
        obtain ⟨_, cl, hcl, cr, hcr, hceq⟩ := hprop c hc
        subst hceq
        obtain ⟨hclne, hclmem⟩ := hb _ _ hL cl hcl
        obtain ⟨_, hcrmem⟩ := hb _ _ hR cr hcr
        constructor
        · obtain ⟨x, hx⟩ := hclne
          exact ⟨x, Finset.mem_union_left _ hx⟩
        · intro x hx
          rcases Finset.mem_union.mp hx with hx | hx
          · have := hclmem x hx
            omega
          · have := hcrmem x hx
            omega
      have hmin : ∀ c ∈ filter_minimal_cuts new_cuts, c ∈ new_cuts :=
        fun c hc => ((filter_minimal_cuts_spec new_cuts).1 c hc).1
      constructor
      · refine cutsBounded_insert hb ?_
        intro c hcmem
        rcases List.mem_append.mp hcmem with hcmem | hcmem
        · obtain ⟨hne, hlt⟩ := hnew c (hmin c hcmem)
          exact ⟨hne, fun x hx => le_of_lt (hlt x hx)⟩
        · simp only [List.mem_singleton] at hcmem
          subst hcmem
          exact ⟨Finset.singleton_nonempty _, by simp⟩
      · refine cutsMinimal_insert hm ?_
        rw [List.pairwise_append]
        refine ⟨filter_minimal_cuts_pairwise new_cuts,
          List.pairwise_singleton _ _, ?_⟩
        intro a ha b hb2
        simp only [List.mem_singleton] at hb2
        subst hb2
        obtain ⟨hane, halt⟩ := hnew a (hmin a ha)
        have hnotmem : node_idx ∉ a := fun hmem2 => absurd (halt _ hmem2) (lt_irrefl _)
        refine ⟨?_, ?_, ?_⟩
        · intro hss
          obtain ⟨x, hx⟩ := hane
          have hxs : x ∈ ({node_idx} : Finset Nat) := hss.subset hx
          rw [Finset.mem_singleton] at hxs
          subst hxs
          exact hnotmem hx
        · intro hss
          exact hnotmem (hss.subset (Finset.mem_singleton_self _))
        · intro haeq
          exact hnotmem (haeq ▸ Finset.mem_singleton_self _)

theorem processNode_trivial {g : AIG} {k : Nat} {cuts cuts' : CutsMap}
    {node_idx : Nat} (hc : CutsTrivial g cuts)
    (h : processNode g k cuts node_idx = some cuts') : CutsTrivial g cuts' := by
  unfold processNode at h
  cases hnode : mapFind? g.node_map node_idx with
  | none =>
    rw [hnode] at h
    injection h with h'
    subst h'
    exact cutsTrivial_insert hc ⟨List.mem_singleton_self _, fun _ => rfl⟩
  | some node =>
    rw [hnode] at h
    cases hcomp : compute_node_cuts g cuts node_idx k with
    | none =>
      rw [hcomp] at h
      cases h
    | some new_cuts =>
      rw [hcomp] at h
      injection h with h'
      subst h'
      refine cutsTrivial_insert hc ⟨?_, ?_⟩
      · exact List.mem_append_right _ (List.mem_singleton_self _)
      · intro hnone
        rw [hnode] at hnone
        cases hnone

theorem runCuts_feasible (g : AIG) (k : Nat) (hk : 1 ≤ k) :
    ∀ (order : List Nat) (cuts out : CutsMap), CutsFeasible k cuts →
      runCuts g k cuts order = some out → CutsFeasible k out := by
  intro order
  induction order with
  | nil =>
    intro cuts out hc heq
    injection heq with h'
    subst h'
    exact hc
  | cons x rest ih =>
    intro cuts out hc heq
    rw [runCuts] at heq
    cases hp : processNode g k cuts x with
    | none =>
      rw [hp] at heq
      cases heq
    | some cuts' =>
      rw [hp] at heq
      exact ih cuts' out (processNode_feasible hk hc hp) heq

theorem runCuts_good (g : AIG) (k : Nat) (hg : DepOrdered g) :
    ∀ (order : List Nat) (cuts out : CutsMap),
      CutsBounded cuts → CutsMinimal cuts →
      runCuts g k cuts order = some out → CutsBounded out ∧ CutsMinimal out := by
  intro order
  induction order with
  | nil =>
    intro cuts out hb hm heq
    injection heq with h'
    subst h'
    exact ⟨hb, hm⟩
  | cons x rest ih =>
    intro cuts out hb hm heq
    rw [runCuts] at heq
    cases hp : processNode g k cuts x with
    | none =>
      rw [hp] at heq
      cases heq
    | some cuts' =>
      rw [hp] at heq
      obtain ⟨hb', hm'⟩ := processNode_good hg hb hm hp
      exact ih cuts' out hb' hm' heq

theorem runCuts_trivial (g : AIG) (k : Nat) :
    ∀ (order : List Nat) (cuts out : CutsMap), CutsTrivial g cuts →
      runCuts g k cuts order = some out → CutsTrivial g out := by
  intro order
  induction order with
  | nil =>
    intro cuts out hc heq
    injection heq with h'
    subst h'
    exact hc
  | cons x rest ih =>
    intro cuts out hc heq
    rw [runCuts] at heq
    cases hp : processNode g k cuts x with
    | none =>
      rw [hp] at heq
      cases heq
    | some cuts' =>
      rw [hp] at heq
      exact ih cuts' out (processNode_trivial hc hp) heq

theorem cutsFeasible_nil (k : Nat) : CutsFeasible k [] := by
  intro n cl hf
  simp [mapFind?] at hf

theorem cutsBounded_nil : CutsBounded [] := by
  intro n cl hf
  simp [mapFind?] at hf

theorem cutsMinimal_nil : CutsMinimal [] := by
  intro n cl hf
  simp [mapFind?] at hf

theorem cutsTrivial_nil (g : AIG) : CutsTrivial g [] := by
  intro n cl hf
  simp [mapFind?] at hf

/-- C1 — Cut minimality: after `enumerate_cuts(k, inputs)` on a
dependency-ordered (acyclic) graph, for every node id in the cuts table no
two distinct stored cuts are related by strict subset and no two stored
cuts are equal. -/
theorem claim_C1_cut_minimality (g : AIG) (k : Nat) (inputs : List Signal)
    (tbl : CutsMap) (hg : DepOrdered g)
    (henum : enumerate_cuts g k inputs = some tbl) :
    ∀ n cl, mapFind? tbl n = some cl →
      cl.Pairwise (fun c1 c2 => ¬ c1 ⊂ c2 ∧ ¬ c2 ⊂ c1 ∧ c1 ≠ c2) :=
  (runCuts_good g k hg _ [] tbl cutsBounded_nil cutsMinimal_nil henum).2

/-- Witness for C1 on scenario B with `k = 3`. -/
theorem claim_C1_cut_minimality_witness :
    DepOrdered gB ∧ enumerate_cuts gB 3 inputsB = some tblB ∧
      ∀ n cl, mapFind? tblB n = some cl →
        cl.Pairwise (fun c1 c2 => ¬ c1 ⊂ c2 ∧ ¬ c2 ⊂ c1 ∧ c1 ≠ c2) :=
  ⟨by decide, by decide,
    claim_C1_cut_minimality gB 3 inputsB tblB (by decide) (by decide)⟩

/-- C2 — Cut feasibility: for every bound `k ≥ 1`, every cut stored in the
cuts table by `enumerate_cuts` — and likewise by
`calculate_cuts_single_node`, including its returned list — has cardinality
at most `k`. -/
theorem claim_C2_cut_feasibility (g : AIG) (k : Nat) (inputs : List Signal)
    (hk : 1 ≤ k) :
    (∀ tbl, enumerate_cuts g k inputs = some tbl →
      ∀ n cl, mapFind? tbl n = some cl → ∀ c ∈ cl, c.card ≤ k) ∧
    ∀ target tbl res,
      calculate_cuts_single_node g k inputs target = some (tbl, res) →
      (∀ n cl, mapFind? tbl n = some cl → ∀ c ∈ cl, c.card ≤ k) ∧
        ∀ c ∈ res, c.card ≤ k := by
  constructor
  · intro tbl henum
    exact runCuts_feasible g k hk _ [] tbl (cutsFeasible_nil k) henum
  · intro target tbl res hcalc
    simp only [calculate_cuts_single_node] at hcalc
    by_cases hcond : ¬ (∃ sig ∈ inputs, sig.index = target) ∧
        ¬ target ∈ g.topological_sort
    · rw [if_pos hcond] at hcalc
      injection hcalc with h'
      obtain ⟨h1, h2⟩ := Prod.mk.injEq .. |>.mp h'
      subst h1
      subst h2
      constructor
      · intro n cl hf
        simp [mapFind?] at hf
      · intro c hc
        cases hc
    · rw [if_neg hcond] at hcalc
      split at hcalc
      next hrun =>
        cases hcalc
      next cuts hrun =>
        injection hcalc with h'
        obtain ⟨h1, h2⟩ := Prod.mk.injEq .. |>.mp h'
        have hfc : CutsFeasible k cuts :=
          runCuts_feasible g k hk _ [] cuts (cutsFeasible_nil k) hrun
        constructor
        · rw [← h1]
          exact hfc
        · rw [← h2]
          cases hfind : mapFind? cuts target with
          | none =>
            intro c hc
            simp at hc
          | some cl =>
            exact hfc target cl hfind

/-- Witness for C2 on scenario A with `k = 2` (both entry points). -/
theorem claim_C2_cut_feasibility_witness :
    1 ≤ 2 ∧
      ((∀ tbl, enumerate_cuts gA 2 inputsA = some tbl →
        ∀ n cl, mapFind? tbl n = some cl → ∀ c ∈ cl, c.card ≤ 2) ∧
      ∀ target tbl res,
        calculate_cuts_single_node gA 2 inputsA target = some (tbl, res) →
        (∀ n cl, mapFind? tbl n = some cl → ∀ c ∈ cl, c.card ≤ 2) ∧
          ∀ c ∈ res, c.card ≤ 2) :=
  ⟨by decide, claim_C2_cut_feasibility gA 2 inputsA (by decide)⟩

theorem enumerate_cuts_of_topo_ne_nil {g : AIG} {k : Nat} {inputs : List Signal}
    (h : g.topological_sort ≠ []) :
    enumerate_cuts g k inputs = runCuts g k [] g.topological_sort := by
  have hf : g.topological_sort.isEmpty = false := by
    cases hts : g.topological_sort
    · exact absurd hts h
    · rfl
  simp only [enumerate_cuts, hf]
  rfl

/-- C3 — counterexample: on the acyclic graph `gC` (one AND node
`4 = AND(1, 2)`) with declared primary inputs `1, 2, 3`, `enumerate_cuts`
stores no cuts entry at all for the declared-but-unreferenced input `3`, so
`cuts[3]` is not the one-element list `[{3}]` as the claim requires. -/
theorem claim_C3_counterexample :
    DepOrdered gC ∧ (⟨3, false⟩ : Signal) ∈ inputsC ∧
      enumerate_cuts gC 2 inputsC = some tblC ∧ mapFind? tblC 3 = none := by
  refine ⟨by decide, by decide, by decide, by decide⟩

/-- C3 (amended) — Trivial-cut presence: after `enumerate_cuts` on a
dependency-ordered (acyclic) graph, every node-table key has a cuts entry
containing its singleton `{n}`; every id with a cuts entry has `{n}` in its
entry; and every leaf id that has a cuts entry (a processed primary
input/constant — not an unreferenced declared input, which gets no entry
when the graph has AND nodes) has exactly the one-element list `[{n}]`. -/
theorem claim_C3_trivial_cuts_amended (g : AIG) (k : Nat) (inputs : List Signal)
    (tbl : CutsMap) (hg : DepOrdered g)
    (henum : enumerate_cuts g k inputs = some tbl) :
    (∀ p ∈ g.node_map, ∃ cl, mapFind? tbl p.1 = some cl ∧ {p.1} ∈ cl) ∧
      ∀ n cl, mapFind? tbl n = some cl →
        {n} ∈ cl ∧ (mapFind? g.node_map n = none → cl = [{n}]) := by
  have htriv : CutsTrivial g tbl :=
    runCuts_trivial g k _ [] tbl (cutsTrivial_nil g) henum
  refine ⟨?_, htriv⟩
  intro p hp
  obtain ⟨hkeys, _, _⟩ := topological_sort_spec g hg
  have hptopo : p.1 ∈ g.topological_sort := hkeys p hp
  have htne : g.topological_sort ≠ [] := by
    intro hts
    rw [hts] at hptopo
    cases hptopo
  have henum' : runCuts g k [] g.topological_sort = some tbl := by
    rw [← enumerate_cuts_of_topo_ne_nil htne]
    exact henum
  have hsome : (mapFind? tbl p.1).isSome := by
    rw [runCuts_keys g k _ [] tbl henum' p.1]
    right
    exact hptopo
  obtain ⟨cl, hcl⟩ := Option.isSome_iff_exists.mp hsome
  exact ⟨cl, hcl, (htriv p.1 cl hcl).1⟩

/-- Witness for the amended C3 on scenario B with `k = 3`. -/
theorem claim_C3_trivial_cuts_amended_witness :
    DepOrdered gB ∧ enumerate_cuts gB 3 inputsB = some tblB ∧
      ((∀ p ∈ gB.node_map, ∃ cl, mapFind? tblB p.1 = some cl ∧ {p.1} ∈ cl) ∧
        ∀ n cl, mapFind? tblB n = some cl →
          {n} ∈ cl ∧ (mapFind? gB.node_map n = none → cl = [{n}])) :=
  ⟨by decide, by decide,
    claim_C3_trivial_cuts_amended gB 3 inputsB tblB (by decide) (by decide)⟩

theorem listPosition_eq_none {target : Nat} :
    ∀ {l : List Nat}, target ∉ l → listPosition target l = none := by
  intro l
  induction l with
  | nil => intro _; rfl
  | cons x xs ih =>
    intro h
    have hx : ¬ x = target := fun he => h (he ▸ List.mem_cons_self x xs)
    rw [listPosition, if_neg hx, ih (fun hm => h (List.mem_cons_of_mem x hm))]
    rfl

theorem listPosition_spec {target : Nat} :
    ∀ {l : List Nat} {pos : Nat}, listPosition target l = some pos →
      ∃ P S, l = P ++ target :: S ∧ P.length = pos ∧ target ∉ P := by
  intro l
  induction l with
  | nil => intro pos h; cases h
  | cons x xs ih =>
    intro pos h
    by_cases hx : x = target
    · subst hx
      rw [listPosition, if_pos rfl] at h
      injection h with h'
      subst h'
      exact ⟨[], xs, rfl, rfl, by simp⟩
    · rw [listPosition, if_neg hx] at h
      cases hpos : listPosition target xs with
      | none =>
        rw [hpos] at h
        cases h
      | some p' =>
        rw [hpos] at h
        injection h with h'
        subst h'
        obtain ⟨P, S, hl, hlen, hnp⟩ := ih hpos
        refine ⟨x :: P, S, ?_, ?_, ?_⟩
        · rw [hl, List.cons_append]
        · simp [hlen]
        · intro hm
          rcases List.mem_cons.mp hm with hm | hm
          · exact hx hm.symm
          · exact hnp hm

theorem listPosition_isSome {target : Nat} :
    ∀ {l : List Nat}, target ∈ l → ∃ pos, listPosition target l = some pos := by
  intro l
  induction l with
  | nil => intro h; cases h
  | cons x xs ih =>
    intro h
    by_cases hx : x = target
    · exact ⟨0, by rw [listPosition, if_pos hx]⟩
    · have hxs : target ∈ xs := by
        rcases List.mem_cons.mp h with h | h
        · exact absurd h.symm hx
        · exact h
      obtain ⟨p, hp⟩ := ih hxs
      exact ⟨p + 1, by rw [listPosition, if_neg hx, hp]; rfl⟩

theorem take_after_position {target : Nat} {l P S : List Nat}
    (hl : l = P ++ target :: S) : l.take (P.length + 1) = P ++ [target] := by
  subst hl
  rw [List.take_append_eq_append_take, List.take_of_length_le (by omega)]
  have h1 : P.length + 1 - P.length = 1 := by omega
  rw [h1]
  rfl

/-- C8 — Single-node/whole-graph agreement: for a target that occurs in the
topological order of a dependency-ordered (acyclic) graph,
`calculate_cuts_single_node` returns exactly the cut list that
`enumerate_cuts` stores for that target — the prefix restriction loses no
cuts of the target. -/
theorem claim_C8_single_node_agreement (g : AIG) (k : Nat) (inputs : List Signal)
    (target : Nat) (tbl : CutsMap) (hg : DepOrdered g)
    (htopo : target ∈ g.topological_sort)
    (henum : enumerate_cuts g k inputs = some tbl) :
    ∃ tbl2 res, calculate_cuts_single_node g k inputs target = some (tbl2, res) ∧
      mapFind? tbl target = some res := by
  obtain ⟨_, hnd, _⟩ := topological_sort_spec g hg
  have htne : g.topological_sort ≠ [] := List.ne_nil_of_mem htopo
  have henum' : runCuts g k [] g.topological_sort = some tbl := by
    rw [← enumerate_cuts_of_topo_ne_nil htne]
    exact henum
  obtain ⟨pos, hpos⟩ := listPosition_isSome htopo
  obtain ⟨P, S, hl, hlen, _⟩ := listPosition_spec hpos
  have htake : g.topological_sort.take (pos + 1) = P ++ [target] := by
    rw [← hlen]
    exact take_after_position hl
  have hsplit : g.topological_sort = (P ++ [target]) ++ S := by
    rw [hl]
    simp
  rw [hsplit, runCuts_append] at henum'
  cases hrunP : runCuts g k [] (P ++ [target]) with
  | none =>
    rw [hrunP] at henum'
    cases henum'
  | some tblP =>
    rw [hrunP] at henum'
    have hself : ∃ cl, mapFind? tblP target = some cl := by
      rw [runCuts_append] at hrunP
      cases hrunP2 : runCuts g k [] P with
      | none =>
        rw [hrunP2] at hrunP
        cases hrunP
      | some tblP0 =>
        rw [hrunP2] at hrunP
        simp only [runCuts] at hrunP
        cases hp : processNode g k tblP0 target with
        | none =>
          rw [hp] at hrunP
          cases hrunP
        | some c' =>
          rw [hp] at hrunP
          have hc' : c' = tblP := by injection hrunP
          rw [← hc']
          exact processNode_find_self hp
    obtain ⟨res, hres⟩ := hself
    have hnS : target ∉ S := by
      rw [hl] at hnd
      obtain ⟨_, hcons, _⟩ := List.nodup_append.mp hnd
      exact (List.nodup_cons.mp hcons).1
    have hfinal : mapFind? tbl target = some res := by
      rw [runCuts_not_mem g k S tblP tbl target hnS henum']
      exact hres
    refine ⟨tblP, res, ?_, hfinal⟩
    simp only [calculate_cuts_single_node]
    have hcond : ¬ (¬ (∃ sig ∈ inputs, sig.index = target) ∧
        ¬ target ∈ g.topological_sort) := fun h => h.2 htopo
    rw [if_neg hcond]
    have hne2 : (P ++ [target]).isEmpty = false :=
      List.isEmpty_eq_false.mpr (by simp)
    simp only [hpos, htake, hne2, if_false, Bool.false_eq_true, hrunP, hres]
    rfl

/-- Witness for C8 on scenario B, target node 4. -/
theorem claim_C8_single_node_agreement_witness :
    DepOrdered gB ∧ (4 : Nat) ∈ gB.topological_sort ∧
      enumerate_cuts gB 3 inputsB = some tblB ∧
      ∃ tbl2 res, calculate_cuts_single_node gB 3 inputsB 4 = some (tbl2, res) ∧
        mapFind? tblB 4 = some res :=
  ⟨by decide, by decide, by decide,
    claim_C8_single_node_agreement gB 3 inputsB 4 tblB (by decide) (by decide)
      (by decide)⟩

/-- C9 — Invalid target handling: when the target id is neither the index
of a declared primary input nor present in the topological order,
`calculate_cuts_single_node` returns (after its diagnostic, which is I/O)
the cleared table and an empty cut list — `some`, never a panic. -/
theorem claim_C9_invalid_target (g : AIG) (k : Nat) (inputs : List Signal)
    (target : Nat) (hnin : ¬ ∃ sig ∈ inputs, sig.index = target)
    (hntopo : target ∉ g.topological_sort) :
    calculate_cuts_single_node g k inputs target = some ([], []) := by
  simp only [calculate_cuts_single_node]
  rw [if_pos ⟨hnin, hntopo⟩]

/-- Witness for C9 on `gC` with the nonexistent target 9. -/
theorem claim_C9_invalid_target_witness :
    (¬ ∃ sig ∈ inputsC, sig.index = 9) ∧ (9 : Nat) ∉ gC.topological_sort ∧
      calculate_cuts_single_node gC 2 inputsC 9 = some ([], []) :=
  ⟨by decide, by decide,
    claim_C9_invalid_target gC 2 inputsC 9 (by decide) (by decide)⟩

/-- C10 — Unreferenced declared input: when the target is a declared primary
input absent from the topological order of a graph with at least one AND
node, `calculate_cuts_single_node` passes the validity check, finds an empty
prefix, falls back to `[target]`, and returns the singleton cut list
`[{target}]` — while `enumerate_cuts` on the same graph stores no entry for
that input. -/
theorem claim_C10_unreferenced_input (g : AIG) (k : Nat) (inputs : List Signal)
    (target : Nat) (hg : DepOrdered g)
    (hin : ∃ sig ∈ inputs, sig.index = target)
    (hntopo : target ∉ g.topological_sort)
    (hnm : g.node_map ≠ []) :
    calculate_cuts_single_node g k inputs target =
      some ([(target, [{target}])], [{target}]) ∧
      ∀ tbl, enumerate_cuts g k inputs = some tbl → mapFind? tbl target = none := by
  obtain ⟨hkeys, _, _⟩ := topological_sort_spec g hg
  have hnkey : mapFind? g.node_map target = none := by
    cases hfind : mapFind? g.node_map target with
    | none => rfl
    | some nd => exact absurd (hkeys (target, nd) (mapFind?_mem hfind)) hntopo
  constructor
  · simp only [calculate_cuts_single_node]
    have hcond : ¬ (¬ (∃ sig ∈ inputs, sig.index = target) ∧
        ¬ target ∈ g.topological_sort) := fun h => h.1 hin
    rw [if_neg hcond, listPosition_eq_none hntopo]
    simp [runCuts, processNode, hnkey, mapInsert, mapFind?]
  · intro tbl henum
    obtain ⟨p, hp⟩ := List.exists_mem_of_ne_nil g.node_map hnm
    have htne : g.topological_sort ≠ [] := List.ne_nil_of_mem (hkeys p hp)
    have henum' : runCuts g k [] g.topological_sort = some tbl := by
      rw [← enumerate_cuts_of_topo_ne_nil htne]
      exact henum
    cases hfind : mapFind? tbl target with
    | none => rfl
    | some cl =>
      have hs : (mapFind? tbl target).isSome := by rw [hfind]; rfl
      rw [runCuts_keys g k _ [] tbl henum' target] at hs
      rcases hs with h | h
      · simp [mapFind?] at h
      · exact absurd h hntopo

/-- Witness for C10 on `gC` with the unreferenced declared input 3. -/
theorem claim_C10_unreferenced_input_witness :
    DepOrdered gC ∧ (∃ sig ∈ inputsC, sig.index = 3) ∧
      (3 : Nat) ∉ gC.topological_sort ∧ gC.node_map ≠ [] ∧
      (calculate_cuts_single_node gC 2 inputsC 3 = some ([(3, [{3}])], [{3}]) ∧
        ∀ tbl, enumerate_cuts gC 2 inputsC = some tbl → mapFind? tbl 3 = none) :=
  ⟨by decide, by decide, by decide, by decide,
    claim_C10_unreferenced_input gC 2 inputsC 3 (by decide) (by decide)
      (by decide) (by decide)⟩
